import Mathlib

/-!
Verification of `tools/AlignMoreSeqsToPairWithMissingCoverage.py` (shiver).

The program aligns further sequences to a pairwise alignment whose first
sequence (the consensus) may contain the missing-coverage character `?`.
It replaces `?` by `-`, realigns with mafft, then reconciles the
post-alignment consensus with the pre-alignment one to restore `?`.

Sequences are modelled as `List Char`.  The script's runtime errors
(`exit(1)` sites and Python index errors) are modelled by the `Err`
inductive, and each fallible stage returns `Except Err _`.
-/

namespace Shiver

/-- The distinct failure exits of the script, plus the Python runtime
errors it can hit (index out of bounds, use of an unassigned local). -/
inductive Err
  /-- line 76: sequence lengths differ. -/
  | formatLenMismatch
  /-- line 82: a column has a gap in both sequences. -/
  | formatDualGap
  /-- line 87: a column has missing coverage in the consensus, gap in the reference. -/
  | formatMissingVsGap
  /-- line 136: aligned ids differ from the expected ids. -/
  | consistencyIds
  /-- line 145: consensus bases changed across alignment. -/
  | consistencyBases
  /-- line 196: gap or missing coverage became a non-gap after alignment. -/
  | gapBecameNonGap
  /-- line 210: sequence became something other than sequence after alignment. -/
  | baseBecameNonBase
  /-- line 224: a split fragment could not be matched to its pre-alignment form. -/
  | fragmentMismatch
  /-- a Python IndexError: a list was indexed out of bounds. -/
  | indexOOB
  /-- a Python UnboundLocalError: `SplitSeqByGapsAndMissingCov` on an empty string. -/
  | emptySeq
  /-- line 232: replacing `?` by `-` in the output does not reproduce the post-alignment consensus. -/
  | roundTripFail
  /-- line 237: output has `-` adjacent to `?`. -/
  | adjacencyFail
deriving DecidableEq

/-- Spec §7 taxonomy: the three `ReconciliationError` exits of the walk. -/
def Err.isReconciliationError : Err → Bool
  | .gapBecameNonGap => true
  | .baseBecameNonBase => true
  | .fragmentMismatch => true
  | _ => false

/-- Spec §7 taxonomy: the two `ConsistencyError` exits. -/
def Err.isConsistencyError : Err → Bool
  | .consistencyIds => true
  | .consistencyBases => true
  | _ => false

/-- Spec §7 taxonomy: the three `FormatError` exits of input validation. -/
def Err.isFormatError : Err → Bool
  | .formatLenMismatch => true
  | .formatDualGap => true
  | .formatMissingVsGap => true
  | _ => false

/-- `CharToInt` (source lines 152-157): numeric class of a character,
missing coverage `?` is 0, gap `-` is 1, anything else (a base) is 2. -/
def CharToInt (c : Char) : Nat :=
  if c = '?' then 0 else if c = '-' then 1 else 2

/-- A run of the segmentation: its characters and its `BitType`
(the script keeps two parallel lists `ListOfBitsOfSeq`, `ListOfBitTypes`;
we keep the same data zipped together). -/
abbrev Run := List Char × Nat

/-- The scan of `SplitSeqByGapsAndMissingCov`: `cur`/`t` are the run
being extended (the script's last list element); a character of the same
class extends it, otherwise the run is emitted and a new one starts. -/
def splitAux : List Char → List Char → Nat → List Run
  | [], cur, t => [(cur, t)]
  | c :: rest, cur, t =>
    if CharToInt c = t then splitAux rest (cur ++ [c]) t
    else (cur, t) :: splitAux rest [c] (CharToInt c)

/-- `SplitSeqByGapsAndMissingCov` (source lines 160-174): split a
sequence into runs of missing coverage, gaps and bases.  On the empty
sequence the Python function raises `UnboundLocalError` (its locals are
only assigned at `i == 0`), modelled as `none`. -/
def SplitSeqByGapsAndMissingCov : List Char → Option (List Run)
  | [] => none
  | c :: rest => some (splitAux rest [c] (CharToInt c))

/-- Concatenation of the runs' characters. -/
def runsJoin : List Run → List Char
  | [] => []
  | (r, _) :: rest => r ++ runsJoin rest

/-- No two adjacent runs share a BitType. -/
def altTypes : List Run → Bool
  | (_, t1) :: (r2, t2) :: rest => t1 ≠ t2 && altTypes ((r2, t2) :: rest)
  | _ => true

/-- A well-formed run: nonempty, and every character has the recorded class. -/
def runWF : Run → Prop
  | (r, t) => r ≠ [] ∧ ∀ c ∈ r, CharToInt c = t

/-- All runs of a segmentation are well-formed. -/
def runsWF (rs : List Run) : Prop := ∀ x ∈ rs, runWF x

instance : DecidablePred runWF := fun x =>
  match x with
  | (r, t) => inferInstanceAs (Decidable (r ≠ [] ∧ ∀ c ∈ r, CharToInt c = t))

instance : DecidablePred runsWF := fun rs =>
  inferInstanceAs (Decidable (∀ x ∈ rs, runWF x))

/-- `s.replace('-', '')`: drop the gap characters. -/
def stripGaps (s : List Char) : List Char := s.filter (fun c => c != '-')

/-- `s.replace('?', '-')`: the aligner-safe projection of the consensus. -/
def subMissing (s : List Char) : List Char :=
  s.map (fun c => if c = '?' then '-' else c)

/-- Base content of a pre-alignment consensus:
`s.replace('?', '-').replace('-', '')` as in the conservation check. -/
def basesOf (s : List Char) : List Char := stripGaps (subMissing s)

/-- Input-pair column scan (source lines 80-91): at a reference gap the
consensus may hold neither a gap (dual-gap column) nor missing coverage. -/
def checkCols : List (Char × Char) → Except Err Unit
  | [] => .ok ()
  | (cb, rb) :: rest =>
    if rb = '-' then
      if cb = '-' then .error .formatDualGap
      else if cb = '?' then .error .formatMissingVsGap
      else checkCols rest
    else checkCols rest

/-- Input-pair validation (source lines 76-91): the length check, then the
column scan over `izip(consensus, reference)`. -/
def checkPair (cons ref : List Char) : Except Err Unit :=
  if cons.length ≠ ref.length then .error .formatLenMismatch
  else checkCols (cons.zip ref)

/-- The greedy consumption loop of the BitType-2 branch (source lines
220-223): while the accumulated characters hold fewer than `L` non-gap
characters, append the run at the cursor and advance.  Indexing past the
end of the run list is a Python `IndexError`. -/
def greedy (L : Nat) (acc : List Char) (post : List Run) :
    Except Err (List Char × List Run) :=
  if L ≤ (stripGaps acc).length then .ok (acc, post)
  else
    match post with
    | [] => .error .indexOOB
    | (p, _) :: rest => greedy L (acc ++ p) rest

/-- The reconciliation walk (source lines 184-229).  The first list is
the remaining pre-alignment runs, the second the post-alignment runs from
the cursor on; the result is the `NewConsensus` text contributed by these
runs together with the runs left after the final cursor position.  The
loop body first reads the post-alignment run at the cursor (an
`IndexError` if the cursor is past the end), then branches on the
pre-alignment BitType exactly as the script does. -/
def reconcileRuns : List Run → List Run → Except Err (List Char × List Run)
  | [], post => .ok ([], post)
  | (preBit, preType) :: preRest, post =>
    match post with
    | [] => .error .indexOOB
    | (postBit, postType) :: postRest =>
      if preType = 0 ∨ preType = 1 then
        if postType ≠ 1 then .error .gapBecameNonGap
        else
          match preBit with
          | [] => .error .indexOOB
          | c :: _ =>
            match reconcileRuns preRest postRest with
            | .error e => .error e
            | .ok (out, rem) => .ok (List.replicate postBit.length c ++ out, rem)
      else
        if postType ≠ 2 then .error .baseBecameNonBase
        else if postBit.length = preBit.length then
          match reconcileRuns preRest postRest with
          | .error e => .error e
          | .ok (out, rem) => .ok (preBit ++ out, rem)
        else
          match greedy preBit.length [] ((postBit, postType) :: postRest) with
          | .error e => .error e
          | .ok (newForm, post2) =>
            if stripGaps newForm ≠ preBit then .error .fragmentMismatch
            else
              match reconcileRuns preRest post2 with
              | .error e => .error e
              | .ok (out, rem) => .ok (newForm ++ out, rem)

/-- `'?-' in NewConsensus or '-?' in NewConsensus` (source line 237). -/
def hasAdjacentConflict : List Char → Bool
  | a :: b :: rest =>
    (a = '?' && b = '-') || (a = '-' && b = '?') || hasAdjacentConflict (b :: rest)
  | _ => false

/-- Reconstruction of the new consensus (source lines 179-241): segment
both consensus forms, run the reconciliation walk, then the two output
sanity checks (round trip, adjacency). -/
def NewConsensusOf (preNorm post : List Char) : Except Err (List Char) :=
  match SplitSeqByGapsAndMissingCov preNorm with
  | none => .error .emptySeq
  | some preRuns =>
    match SplitSeqByGapsAndMissingCov post with
    | none => .error .emptySeq
    | some postRuns =>
      match reconcileRuns preRuns postRuns with
      | .error e => .error e
      | .ok (newCons, _) =>
        if subMissing newCons ≠ post then .error .roundTripFail
        else if hasAdjacentConflict newCons then .error .adjacencyFail
        else .ok newCons

/-- A column the input scan rejects: reference gap with consensus gap or `?`. -/
def badCol (p : Char × Char) : Prop :=
  p.2 = '-' ∧ (p.1 = '-' ∨ p.1 = '?')

instance : DecidablePred badCol := fun p =>
  inferInstanceAs (Decidable (p.2 = '-' ∧ (p.1 = '-' ∨ p.1 = '?')))

/-- `sorted(aligned ids) == sorted(AllIDs)` (source line 136): the two
id lists are equal as multisets; checked here by matching off elements. -/
def idsMatch : List String → List String → Bool
  | [], ys => ys.isEmpty
  | x :: xs, ys => ys.contains x && idsMatch xs (ys.erase x)

/-- The script notes which aligned sequence is the consensus by keeping
the last index whose id equals the consensus id (source lines 132-135). -/
def findConsensusSeq (aligned : List (String × List Char)) (cid : String) :
    Option (List Char) :=
  match aligned with
  | [] => none
  | (i, s) :: rest =>
    match findConsensusSeq rest cid with
    | some t => some t
    | none => if i = cid then some s else none

/-- The post-alignment stage (source lines 131-241): the id-set check,
the base-conservation check on the consensus, then reconstruction. -/
def processAligned (allIds : List String) (cid : String) (preNorm : List Char)
    (aligned : List (String × List Char)) : Except Err (List Char) :=
  if idsMatch (aligned.map Prod.fst) allIds then
    match findConsensusSeq aligned cid with
    | none => .error .consistencyIds
    | some post =>
      if stripGaps post = stripGaps (subMissing preNorm) then
        NewConsensusOf preNorm post
      else .error .consistencyBases
  else .error .consistencyIds

/-! ### Segmenter lemmas -/

theorem splitAux_join (s : List Char) : ∀ cur t,
    runsJoin (splitAux s cur t) = cur ++ s := by
  induction s with
  | nil => intro cur t; simp [splitAux, runsJoin]
  | cons c rest ih =>
    intro cur t
    by_cases h : CharToInt c = t
    · simp [splitAux, h, ih]
    · simp [splitAux, h, runsJoin, ih]

theorem splitAux_head (s : List Char) : ∀ cur t,
    ∃ r rest, splitAux s cur t = (r, t) :: rest := by
  induction s with
  | nil => intro cur t; exact ⟨cur, [], rfl⟩
  | cons c rest ih =>
    intro cur t
    by_cases h : CharToInt c = t
    · simpa [splitAux, h] using ih (cur ++ [c]) t
    · exact ⟨cur, splitAux rest [c] (CharToInt c), by simp [splitAux, h]⟩

theorem splitAux_alt (s : List Char) : ∀ cur t,
    altTypes (splitAux s cur t) = true := by
  induction s with
  | nil => intro cur t; simp [splitAux, altTypes]
  | cons c rest ih =>
    intro cur t
    by_cases h : CharToInt c = t
    · simp [splitAux, h, ih]
    · obtain ⟨r2, rest2, heq⟩ := splitAux_head rest [c] (CharToInt c)
      simp only [splitAux, h, if_neg, ite_false, heq]
      have := ih [c] (CharToInt c)
      rw [heq] at this
      simp [altTypes, this, Ne.symm h]

theorem splitAux_wf (s : List Char) : ∀ cur t, cur ≠ [] →
    (∀ c ∈ cur, CharToInt c = t) → runsWF (splitAux s cur t) := by
  induction s with
  | nil =>
    intro cur t hne hcl
    intro x hx
    simp [splitAux] at hx
    subst hx
    exact ⟨hne, hcl⟩
  | cons c rest ih =>
    intro cur t hne hcl
    by_cases h : CharToInt c = t
    · simp only [splitAux, h, if_pos]
      refine ih (cur ++ [c]) t (by simp) ?_
      intro d hd
      rcases List.mem_append.1 hd with h1 | h1
      · exact hcl d h1
      · simp at h1; subst h1; exact h
    · simp only [splitAux, h, if_neg, ite_false]
      intro x hx
      rcases List.mem_cons.1 hx with h1 | h1
      · subst h1; exact ⟨hne, hcl⟩
      · exact ih [c] (CharToInt c) (by simp) (by simp) x h1

/-- The segmenter on a nonempty sequence: its run list. -/
theorem split_nonempty (s : List Char) (h : s ≠ []) :
    ∃ runs, SplitSeqByGapsAndMissingCov s = some runs ∧
      runsJoin runs = s ∧ altTypes runs = true ∧ runsWF runs := by
  match s, h with
  | c :: rest, _ =>
    refine ⟨splitAux rest [c] (CharToInt c), rfl, ?_, splitAux_alt rest [c] _, ?_⟩
    · simp [splitAux_join]
    · exact splitAux_wf rest [c] (CharToInt c) (by simp) (by simp)

/-- C6 counterexample: the segmenter is not total — on the empty string the
script raises `UnboundLocalError` (modelled as `none`), producing no result. -/
theorem c6_segmenter_not_total_on_empty :
    SplitSeqByGapsAndMissingCov [] = none := rfl

/-- C6 (amended): for any NONEMPTY input string the segmenter produces a
result, the concatenation of its runs reproduces the input exactly, and no
two adjacent runs share a symbol class. -/
theorem c6_segmenter_partition (s : List Char) (h : s ≠ []) :
    ∃ runs, SplitSeqByGapsAndMissingCov s = some runs ∧
      runsJoin runs = s ∧ altTypes runs = true := by
  obtain ⟨runs, h1, h2, h3, _⟩ := split_nonempty s h
  exact ⟨runs, h1, h2, h3⟩

/-- C6 witness: the amended theorem applied to the string `AA??--G`. -/
theorem c6_segmenter_partition_witness :
    (['A','A','?','?','-','-','G'] : List Char) ≠ [] ∧
    ∃ runs,
      SplitSeqByGapsAndMissingCov ['A','A','?','?','-','-','G'] = some runs ∧
      runsJoin runs = ['A','A','?','?','-','-','G'] ∧ altTypes runs = true :=
  ⟨by decide, c6_segmenter_partition ['A','A','?','?','-','-','G'] (by decide)⟩

/-! ### Input validation lemmas -/

theorem checkCols_ok_iff (l : List (Char × Char)) :
    checkCols l = .ok () ↔ ∀ p ∈ l, ¬ badCol p := by
  induction l with
  | nil => simp [checkCols]
  | cons p rest ih =>
    obtain ⟨cb, rb⟩ := p
    by_cases hr : rb = '-'
    · by_cases hc : cb = '-'
      · simp [checkCols, hr, hc, badCol]
      · by_cases hq : cb = '?'
        · simp [checkCols, hr, hc, hq, badCol]
        · simp [checkCols, hr, hc, hq, ih, badCol]
    · simp [checkCols, hr, ih, badCol]

theorem checkCols_err_format (l : List (Char × Char)) :
    ∀ e, checkCols l = .error e → e.isFormatError = true := by
  induction l with
  | nil => intro e h; simp [checkCols] at h
  | cons p rest ih =>
    obtain ⟨cb, rb⟩ := p
    intro e h
    by_cases hr : rb = '-'
    · by_cases hc : cb = '-'
      · simp [checkCols, hr, hc] at h; subst h; rfl
      · by_cases hq : cb = '?'
        · simp [checkCols, hr, hc, hq] at h; subst h; rfl
        · simp [checkCols, hr, hc, hq] at h
          exact ih e h
    · simp [checkCols, hr] at h
      exact ih e h

theorem checkCols_ok_or_err (l : List (Char × Char)) :
    checkCols l = .ok () ∨ ∃ e, checkCols l = .error e := by
  match h : checkCols l with
  | .ok u => left; rfl
  | .error e => right; exact ⟨e, rfl⟩

/-- C7: the input-pair validation fails — with a `FormatError` — if and only
if the lengths differ, or some column has a gap in both sequences, or some
column has `?` in the consensus against `-` in the reference; it passes
otherwise (the check is pure, so passing has no side effect). -/
theorem c7_validation_iff (cons ref : List Char) :
    (checkPair cons ref ≠ .ok () ↔
      cons.length ≠ ref.length ∨ ∃ p ∈ cons.zip ref, badCol p) ∧
    (∀ e, checkPair cons ref = .error e → e.isFormatError = true) := by
  constructor
  · by_cases hlen : cons.length = ref.length
    · simp only [checkPair, hlen, ne_eq, not_true_eq_false, ite_false, if_neg,
        not_not, false_or]
      constructor
      · intro h
        rcases checkCols_ok_or_err (cons.zip ref) with hok | ⟨e, he⟩
        · exact absurd hok h
        · by_contra hno
          push_neg at hno
          have := (checkCols_ok_iff (cons.zip ref)).2 hno
          rw [this] at he
          exact Except.noConfusion he
      · intro ⟨p, hp, hbad⟩ hok
        exact ((checkCols_ok_iff (cons.zip ref)).1 hok) p hp hbad
    · simp [checkPair, hlen]
  · intro e h
    by_cases hlen : cons.length = ref.length
    · simp only [checkPair, hlen, ne_eq, not_true_eq_false, ite_false, if_neg,
        if_false] at h
      exact checkCols_err_format (cons.zip ref) e h
    · simp [checkPair, hlen] at h
      subst h; rfl

/-- C7 witness: a pair with a dual-gap column is rejected; the iff applied
at that concrete pair. -/
theorem c7_validation_iff_witness :
    checkPair ['A','-'] ['T','-'] ≠ .ok () :=
  (c7_validation_iff ['A','-'] ['T','-']).1.mpr
    (Or.inr ⟨('-', '-'), by decide, by decide⟩)

/-! ### Output sanity checks: round trip and adjacency -/

/-- C1: whenever reconstruction emits a new consensus, replacing every `?`
by `-` in it yields exactly the post-alignment consensus string; and if the
walk succeeds but that property fails, the program aborts before output. -/
theorem c1_round_trip :
    (∀ pre post out, NewConsensusOf pre post = .ok out →
      subMissing out = post) ∧
    (∀ pre post preRuns postRuns nc rem,
      SplitSeqByGapsAndMissingCov pre = some preRuns →
      SplitSeqByGapsAndMissingCov post = some postRuns →
      reconcileRuns preRuns postRuns = .ok (nc, rem) →
      subMissing nc ≠ post →
      NewConsensusOf pre post = .error .roundTripFail) := by
  constructor
  · intro pre post out h
    unfold NewConsensusOf at h
    repeat' split at h
    all_goals simp_all
  · intro pre post preRuns postRuns nc rem h1 h2 h3 h4
    simp [NewConsensusOf, h1, h2, h3, h4]

/-- C1 witness: a concrete successful reconstruction and its round trip. -/
theorem c1_round_trip_witness :
    NewConsensusOf ['A','C','?','?','G'] ['A','C','-','-','G'] =
      .ok ['A','C','?','?','G'] ∧
    subMissing ['A','C','?','?','G'] = ['A','C','-','-','G'] :=
  ⟨rfl, c1_round_trip.1 ['A','C','?','?','G'] ['A','C','-','-','G'] _ rfl⟩

theorem hasAdj_cons (x : Char) (l : List Char)
    (h : hasAdjacentConflict l = true) :
    hasAdjacentConflict (x :: l) = true := by
  match l with
  | [] => simp [hasAdjacentConflict] at h
  | a :: rest => simp [hasAdjacentConflict, h]

theorem hasAdj_append_qd (l1 r : List Char) :
    hasAdjacentConflict (l1 ++ '?' :: '-' :: r) = true := by
  induction l1 with
  | nil => simp [hasAdjacentConflict]
  | cons x l1 ih => exact hasAdj_cons x _ ih

theorem hasAdj_append_dq (l1 r : List Char) :
    hasAdjacentConflict (l1 ++ '-' :: '?' :: r) = true := by
  induction l1 with
  | nil => simp [hasAdjacentConflict]
  | cons x l1 ih => exact hasAdj_cons x _ ih

/-- C5: any reconstructed consensus the program emits contains no position
where `?` is adjacent to `-`: neither `?-` nor `-?` occurs as a substring
(the program aborts at the adjacency check otherwise). -/
theorem c5_adjacency (pre post out : List Char)
    (h : NewConsensusOf pre post = .ok out) :
    (∀ l1 r, out ≠ l1 ++ '?' :: '-' :: r) ∧
    (∀ l1 r, out ≠ l1 ++ '-' :: '?' :: r) := by
  have hadj : hasAdjacentConflict out = false := by
    unfold NewConsensusOf at h
    repeat' split at h
    all_goals simp_all
  constructor
  · intro l1 r heq
    rw [heq, hasAdj_append_qd] at hadj
    exact Bool.noConfusion hadj
  · intro l1 r heq
    rw [heq, hasAdj_append_dq] at hadj
    exact Bool.noConfusion hadj

/-- C5 witness: the theorem applied to a concrete emitted output and one
concrete decomposition. -/
theorem c5_adjacency_witness :
    (['A','C','?','?','G'] : List Char) ≠ ['A','C'] ++ '?' :: '-' :: ['G'] :=
  (c5_adjacency ['A','C','?','?','G'] ['A','C','-','-','G']
    ['A','C','?','?','G'] rfl).1 ['A','C'] ['G']

/-! ### Character classes and strip/join lemmas -/

theorem CharToInt_eq_zero {c : Char} : CharToInt c = 0 ↔ c = '?' := by
  by_cases h : c = '?'
  · simp [CharToInt, h]
  · by_cases h2 : c = '-' <;> simp [CharToInt, h, h2]

theorem CharToInt_eq_one {c : Char} : CharToInt c = 1 ↔ c = '-' := by
  by_cases h : c = '?'
  · simp [CharToInt, h]
  · by_cases h2 : c = '-' <;> simp [CharToInt, h, h2]

theorem CharToInt_eq_two {c : Char} : CharToInt c = 2 ↔ (c ≠ '?' ∧ c ≠ '-') := by
  by_cases h : c = '?'
  · simp [CharToInt, h]
  · by_cases h2 : c = '-' <;> simp [CharToInt, h, h2]

theorem CharToInt_cases (c : Char) :
    CharToInt c = 0 ∨ CharToInt c = 1 ∨ CharToInt c = 2 := by
  by_cases h : c = '?'
  · exact Or.inl (CharToInt_eq_zero.2 h)
  · by_cases h2 : c = '-'
    · exact Or.inr (Or.inl (CharToInt_eq_one.2 h2))
    · exact Or.inr (Or.inr (CharToInt_eq_two.2 ⟨h, h2⟩))

theorem stripGaps_append (a b : List Char) :
    stripGaps (a ++ b) = stripGaps a ++ stripGaps b := by
  simp [stripGaps, List.filter_append]

theorem subMissing_append (a b : List Char) :
    subMissing (a ++ b) = subMissing a ++ subMissing b := by
  simp [subMissing, List.map_append]

theorem basesOf_append (a b : List Char) :
    basesOf (a ++ b) = basesOf a ++ basesOf b := by
  simp [basesOf, subMissing_append, stripGaps_append]

theorem subMissing_length (a : List Char) :
    (subMissing a).length = a.length := by
  simp [subMissing]

theorem basesOf_eq_nil_of_gapOrMissing {r : List Char} {t : Nat}
    (ht : t = 0 ∨ t = 1) (h : ∀ c ∈ r, CharToInt c = t) : basesOf r = [] := by
  induction r with
  | nil => rfl
  | cons c rest ih =>
    have hc := h c (List.mem_cons_self c rest)
    have hrest := ih (fun d hd => h d (List.mem_cons_of_mem c hd))
    have : basesOf (c :: rest) = basesOf [c] ++ basesOf rest :=
      basesOf_append [c] rest
    rw [this, hrest]
    rcases ht with ht | ht
    · rw [ht] at hc
      have := CharToInt_eq_zero.1 hc
      subst this; rfl
    · rw [ht] at hc
      have := CharToInt_eq_one.1 hc
      subst this; rfl

theorem basesOf_eq_self_of_base {r : List Char}
    (h : ∀ c ∈ r, CharToInt c = 2) : basesOf r = r := by
  induction r with
  | nil => rfl
  | cons c rest ih =>
    have hc := CharToInt_eq_two.1 (h c (List.mem_cons_self c rest))
    have hrest := ih (fun d hd => h d (List.mem_cons_of_mem c hd))
    have : basesOf (c :: rest) = basesOf [c] ++ basesOf rest :=
      basesOf_append [c] rest
    rw [this, hrest]
    simp [basesOf, subMissing, stripGaps, hc.1, hc.2]

theorem stripGaps_eq_nil_of_gap {r : List Char}
    (h : ∀ c ∈ r, CharToInt c = 1) : stripGaps r = [] := by
  induction r with
  | nil => rfl
  | cons c rest ih =>
    have hc := CharToInt_eq_one.1 (h c (List.mem_cons_self c rest))
    have hrest := ih (fun d hd => h d (List.mem_cons_of_mem c hd))
    subst hc
    simpa [stripGaps] using hrest

theorem stripGaps_eq_self_of_base {r : List Char}
    (h : ∀ c ∈ r, CharToInt c = 2) : stripGaps r = r := by
  induction r with
  | nil => rfl
  | cons c rest ih =>
    have hc := CharToInt_eq_two.1 (h c (List.mem_cons_self c rest))
    have hrest := ih (fun d hd => h d (List.mem_cons_of_mem c hd))
    simpa [stripGaps, hc.2] using hrest

theorem runsJoin_append (a b : List Run) :
    runsJoin (a ++ b) = runsJoin a ++ runsJoin b := by
  induction a with
  | nil => rfl
  | cons x rest ih =>
    obtain ⟨r, t⟩ := x
    simp [runsJoin, ih]

theorem runsJoin_take_drop (k : Nat) (post : List Run) :
    runsJoin post = runsJoin (post.take k) ++ runsJoin (post.drop k) := by
  conv_lhs => rw [← List.take_append_drop k post]
  exact runsJoin_append _ _

/-- The segmenter's output: join and well-formedness. -/
theorem split_some {s : List Char} {rs : List Run}
    (h : SplitSeqByGapsAndMissingCov s = some rs) :
    runsJoin rs = s ∧ runsWF rs := by
  match s with
  | [] => exact Option.noConfusion h
  | c :: rest =>
    have : rs = splitAux rest [c] (CharToInt c) := by
      simpa [SplitSeqByGapsAndMissingCov] using h.symm
    subst this
    refine ⟨by simp [splitAux_join], ?_⟩
    exact splitAux_wf rest [c] (CharToInt c) (by simp) (by simp)

/-! ### Greedy-consumption lemmas -/

/-- Characterization of the greedy loop: on success it has consumed the
shortest prefix of runs whose accumulated non-gap character count reaches
the target, verbatim, and the cursor stands right after that prefix. -/
theorem greedy_spec (post : List Run) : ∀ L acc nf rem,
    greedy L acc post = .ok (nf, rem) →
    ∃ k, k ≤ post.length ∧ nf = acc ++ runsJoin (post.take k) ∧
      rem = post.drop k ∧ L ≤ (stripGaps nf).length ∧
      ∀ j < k, (stripGaps (acc ++ runsJoin (post.take j))).length < L := by
  induction post with
  | nil =>
    intro L acc nf rem h
    by_cases hc : L ≤ (stripGaps acc).length
    · rw [greedy, if_pos hc] at h
      obtain ⟨ha, hb⟩ : acc = nf ∧ ([] : List Run) = rem := by simpa using h
      subst ha; subst hb
      exact ⟨0, by simp, by simp [runsJoin], rfl, hc, by intro j hj; omega⟩
    · rw [greedy, if_neg hc] at h
      exact Except.noConfusion h
  | cons p rest ih =>
    intro L acc nf rem h
    obtain ⟨pc, pt⟩ := p
    by_cases hc : L ≤ (stripGaps acc).length
    · rw [greedy, if_pos hc] at h
      obtain ⟨ha, hb⟩ : acc = nf ∧ (pc, pt) :: rest = rem := by simpa using h
      subst ha; subst hb
      exact ⟨0, by simp, by simp [runsJoin], rfl, hc, by intro j hj; omega⟩
    · rw [greedy, if_neg hc] at h
      obtain ⟨k, hk, h1, h2, h3, h4⟩ := ih L (acc ++ pc) nf rem h
      refine ⟨k + 1, by simpa using hk, ?_, by simpa using h2, h3, ?_⟩
      · simpa [runsJoin, List.append_assoc] using h1
      · intro j hj
        match j with
        | 0 => simpa [runsJoin] using Nat.lt_of_not_le hc
        | j + 1 =>
          have := h4 j (by omega)
          simpa [runsJoin, List.append_assoc] using this

/-! ### The two branch behaviors of the walk (claims C2, C3) -/

/-- C2: for a pre-alignment Base run `b` whose post-alignment run at the
cursor has a different length, the walk accumulates consecutive
post-alignment runs until the non-gap count first reaches `b`'s length
(conjunct 1), then fails with the fragment-mismatch reconciliation error
if the accumulation with gaps stripped differs from `b` (conjunct 2), and
otherwise emits the accumulation verbatim and leaves the cursor right
after the consumed runs (conjunct 3). -/
theorem c2_base_run_reconcile (b : List Char) (preRest : List Run)
    (postBit : List Char) (postRest : List Run)
    (hlen : postBit.length ≠ b.length) :
    (∀ nf rem, greedy b.length [] ((postBit, 2) :: postRest) = .ok (nf, rem) →
      ∃ k, k ≤ ((postBit, 2) :: postRest).length ∧
        nf = runsJoin (((postBit, 2) :: postRest).take k) ∧
        rem = ((postBit, 2) :: postRest).drop k ∧
        b.length ≤ (stripGaps nf).length ∧
        ∀ j < k,
          (stripGaps (runsJoin (((postBit, 2) :: postRest).take j))).length <
            b.length) ∧
    (∀ nf rem, greedy b.length [] ((postBit, 2) :: postRest) = .ok (nf, rem) →
      stripGaps nf ≠ b →
      reconcileRuns ((b, 2) :: preRest) ((postBit, 2) :: postRest) =
        .error .fragmentMismatch ∧
      Err.fragmentMismatch.isReconciliationError = true) ∧
    (∀ nf rem, greedy b.length [] ((postBit, 2) :: postRest) = .ok (nf, rem) →
      stripGaps nf = b →
      ∀ out rem2, reconcileRuns preRest rem = .ok (out, rem2) →
        reconcileRuns ((b, 2) :: preRest) ((postBit, 2) :: postRest) =
          .ok (nf ++ out, rem2)) := by
  refine ⟨?_, ?_, ?_⟩
  · intro nf rem h
    obtain ⟨k, hk, h1, h2, h3, h4⟩ := greedy_spec _ _ _ _ _ h
    exact ⟨k, hk, by simpa using h1, h2, h3, fun j hj => by simpa using h4 j hj⟩
  · intro nf rem h hne
    refine ⟨?_, rfl⟩
    simp [reconcileRuns, hlen, h, hne]
  · intro nf rem h hstrip out rem2 hrec
    simp [reconcileRuns, hlen, h, hstrip, hrec]

/-- C2 witness: pre-alignment run `ACG` split by the aligner as `AC-G`. -/
theorem c2_base_run_reconcile_witness :
    reconcileRuns [(['A','C','G'], 2)] [(['A','C'], 2), (['-'], 1), (['G'], 2)] =
      .ok (['A','C','-','G'] ++ [], []) :=
  (c2_base_run_reconcile ['A','C','G'] [] ['A','C'] [(['-'], 1), (['G'], 2)]
    (by decide)).2.2 ['A','C','-','G'] [] rfl (by decide) [] [] rfl

/-- C3: for a pre-alignment run of class MissingCoverage or Gap, the walk
fails with the gap-became-non-gap reconciliation error when the
post-alignment run at the cursor is not of class Gap (conjunct 1); when it
is, a run of the post-alignment run's length is emitted, filled with the
original pre-alignment symbol, and the cursor advances by exactly one run
(conjunct 2); in a well-formed MissingCoverage run that symbol is `?`
(conjunct 3). -/
theorem c3_gap_missing_reconcile (c : Char) (cs : List Char) (t : Nat)
    (ht : t = 0 ∨ t = 1) (preRest : List Run)
    (postBit : List Char) (postType : Nat) (postRest : List Run) :
    (postType ≠ 1 →
      reconcileRuns ((c :: cs, t) :: preRest) ((postBit, postType) :: postRest) =
        .error .gapBecameNonGap ∧
      Err.gapBecameNonGap.isReconciliationError = true) ∧
    (postType = 1 → ∀ out rem, reconcileRuns preRest postRest = .ok (out, rem) →
      reconcileRuns ((c :: cs, t) :: preRest) ((postBit, postType) :: postRest) =
        .ok (List.replicate postBit.length c ++ out, rem)) ∧
    (t = 0 → (∀ d ∈ c :: cs, CharToInt d = t) → c = '?') := by
  refine ⟨?_, ?_, ?_⟩
  · intro hpt
    exact ⟨by simp [reconcileRuns, ht, hpt], rfl⟩
  · intro hpt out rem hrec
    subst hpt
    simp [reconcileRuns, ht, hrec]
  · intro ht0 hall
    have := hall c (List.mem_cons_self c cs)
    rw [ht0] at this
    exact CharToInt_eq_zero.1 this

/-- C3 witness: a missing-coverage run `??` against a widened gap run
`---`: the emission is `???` and the cursor advances one run. -/
theorem c3_gap_missing_reconcile_witness :
    reconcileRuns [(['?','?'], 0)] [(['-','-','-'], 1)] =
      .ok (List.replicate 3 '?' ++ [], []) :=
  (c3_gap_missing_reconcile '?' ['?'] 0 (Or.inl rfl) [] ['-','-','-'] 1 []).2.1
    rfl [] [] rfl

/-! ### Structural facts about the walk -/

/-- On success the walk's final cursor stands after a prefix of the
post-alignment runs, and the output's length is that prefix's length. -/
theorem reconcile_shape (preRuns : List Run) : ∀ postRuns out rem,
    reconcileRuns preRuns postRuns = .ok (out, rem) →
    ∃ k, rem = postRuns.drop k ∧ out.length = (runsJoin (postRuns.take k)).length := by
  induction preRuns with
  | nil =>
    intro post out rem h
    obtain ⟨h1, h2⟩ : ([] : List Char) = out ∧ post = rem := by
      simpa [reconcileRuns] using h
    exact ⟨0, h2 ▸ rfl, by simp [← h1, runsJoin]⟩
  | cons pr preRest ih =>
    obtain ⟨b, t⟩ := pr
    intro post out rem h
    match post with
    | [] => simp [reconcileRuns] at h
    | (p, tp) :: postRest =>
      rw [reconcileRuns.eq_def] at h
      simp only [] at h
      split at h
      · split at h
        · exact Except.noConfusion h
        · split at h
          · exact Except.noConfusion h
          · split at h
            · exact Except.noConfusion h
            · rename_i c cs heqpre out1 rem1 heq
              obtain ⟨ho, hm⟩ : List.replicate p.length c ++ out1 = out ∧ rem1 = rem := by
                simpa using h
              obtain ⟨k, hr, hl⟩ := ih postRest out1 rem1 heq
              refine ⟨k + 1, by simpa [hm] using hr, ?_⟩
              simp [← ho, runsJoin, hl]
      · split at h
        · exact Except.noConfusion h
        · split at h
          · split at h
            · exact Except.noConfusion h
            · rename_i out1 rem1 heq
              obtain ⟨ho, hm⟩ : b ++ out1 = out ∧ rem1 = rem := by
                simpa using h
              obtain ⟨k, hr, hl⟩ := ih postRest out1 rem1 heq
              refine ⟨k + 1, by simpa [hm] using hr, ?_⟩
              simp [← ho, runsJoin, hl]
              omega
          · split at h
            · exact Except.noConfusion h
            · rename_i nf post2 hg
              split at h
              · exact Except.noConfusion h
              · rename_i hstrip
                split at h
                · exact Except.noConfusion h
                · rename_i out1 rem1 heq
                  obtain ⟨ho, hm⟩ : nf ++ out1 = out ∧ rem1 = rem := by
                    simpa using h
                  obtain ⟨k0, hk0, hnf, hpost2, _, _⟩ := greedy_spec _ _ _ _ _ hg
                  obtain ⟨k, hr, hl⟩ := ih post2 out1 rem1 heq
                  refine ⟨k0 + k, ?_, ?_⟩
                  · rw [← hm, hr, hpost2, List.drop_drop]
                  · rw [← ho, List.length_append, List.take_add, runsJoin_append,
                      hl, hnf, hpost2]
                    simp

/-- The base-content invariant of the walk: if the base characters of the
remaining pre-alignment runs (plus a fixed suffix) equal the non-gap
characters of the remaining post-alignment runs, then after a successful
walk of those pre-alignment runs the suffix equals the non-gap characters
of the runs left at the cursor. -/
theorem reconcile_inv (preRuns : List Run) : ∀ postRuns suffix out rem,
    runsWF preRuns → runsWF postRuns →
    reconcileRuns preRuns postRuns = .ok (out, rem) →
    basesOf (runsJoin preRuns) ++ suffix = stripGaps (runsJoin postRuns) →
    suffix = stripGaps (runsJoin rem) := by
  induction preRuns with
  | nil =>
    intro post suffix out rem _ _ h hinv
    obtain ⟨h1, h2⟩ : ([] : List Char) = out ∧ post = rem := by
      simpa [reconcileRuns] using h
    rw [← h2]
    simpa [runsJoin, basesOf, subMissing, stripGaps] using hinv
  | cons pr preRest ih =>
    obtain ⟨b, t⟩ := pr
    intro post suffix out rem hwfPre hwfPost h hinv
    match post with
    | [] => simp [reconcileRuns] at h
    | (p, tp) :: postRest =>
      have hwfb : b ≠ [] ∧ ∀ c ∈ b, CharToInt c = t :=
        hwfPre (b, t) (List.mem_cons_self _ _)
      have hwfp : p ≠ [] ∧ ∀ c ∈ p, CharToInt c = tp :=
        hwfPost (p, tp) (List.mem_cons_self _ _)
      have hwfPre2 : runsWF preRest := fun x hx => hwfPre x (List.mem_cons_of_mem _ hx)
      have hwfPost2 : runsWF postRest := fun x hx => hwfPost x (List.mem_cons_of_mem _ hx)
      obtain ⟨c, cs, rfl⟩ : ∃ c cs, b = c :: cs := by
        match b, hwfb.1 with
        | c :: cs, _ => exact ⟨c, cs, rfl⟩
      simp only [runsJoin] at hinv
      rw [basesOf_append, stripGaps_append] at hinv
      rw [reconcileRuns.eq_def] at h
      simp only [] at h
      split at h
      · rename_i h01
        split at h
        · exact Except.noConfusion h
        · rename_i hpt1
          have htp : tp = 1 := not_not.mp hpt1
          split at h
          · exact Except.noConfusion h
          · rename_i out1 rem1 heq
            obtain ⟨ho, hm⟩ :
                List.replicate p.length c ++ out1 = out ∧ rem1 = rem := by
              simpa using h
            have hb0 : basesOf (c :: cs) = [] :=
              basesOf_eq_nil_of_gapOrMissing h01 hwfb.2
            have hp0 : stripGaps p = [] := stripGaps_eq_nil_of_gap (htp ▸ hwfp.2)
            rw [hb0, hp0] at hinv
            simp only [List.nil_append] at hinv
            rw [← hm]
            exact ih postRest suffix out1 rem1 hwfPre2 hwfPost2 heq hinv
      · rename_i h01
        split at h
        · exact Except.noConfusion h
        · rename_i hpt2
          have htp : tp = 2 := not_not.mp hpt2
          have ht2 : t = 2 := by
            have hc := hwfb.2 c (List.mem_cons_self _ _)
            rcases CharToInt_cases c with h0 | h1 | h2 <;> omega
          have hbb : basesOf (c :: cs) = c :: cs :=
            basesOf_eq_self_of_base (ht2 ▸ hwfb.2)
          have hpp : stripGaps p = p := stripGaps_eq_self_of_base (htp ▸ hwfp.2)
          rw [hbb, hpp] at hinv
          split at h
          · -- fast path: equal lengths
            split at h
            · exact Except.noConfusion h
            · rename_i out1 rem1 heq
              have hplen : p.length = (c :: cs).length := by assumption
              obtain ⟨ho, hm⟩ : (c :: cs) ++ out1 = out ∧ rem1 = rem := by
                simpa using h
              rw [List.append_assoc] at hinv
              have hinv2 := List.append_inj_right hinv (by rw [hplen])
              rw [← hm]
              exact ih postRest suffix out1 rem1 hwfPre2 hwfPost2 heq hinv2
          · -- greedy path
            split at h
            · exact Except.noConfusion h
            · rename_i nf post2 hg
              split at h
              · exact Except.noConfusion h
              · rename_i hns
                have hstrip : stripGaps nf = c :: cs := not_not.mp hns
                split at h
                · exact Except.noConfusion h
                · rename_i out1 rem1 heq
                  obtain ⟨ho, hm⟩ : nf ++ out1 = out ∧ rem1 = rem := by
                    simpa using h
                  obtain ⟨k0, hk0, hnf, hpost2, _, _⟩ := greedy_spec _ _ _ _ _ hg
                  have hnf2 : nf = runsJoin (((p, tp) :: postRest).take k0) := by
                    simpa using hnf
                  have hwfPost3 : runsWF post2 := fun x hx =>
                    hwfPost x (List.mem_of_mem_drop (hpost2 ▸ hx))
                  have hsplitjoin :
                      stripGaps p ++ stripGaps (runsJoin postRest) =
                        (c :: cs) ++ stripGaps (runsJoin post2) := by
                    rw [← stripGaps_append, ← runsJoin]
                    rw [runsJoin_take_drop k0 ((p, tp) :: postRest),
                      stripGaps_append, ← hnf2, ← hpost2, hstrip]
                  rw [hpp] at hsplitjoin
                  rw [hsplitjoin, List.append_assoc] at hinv
                  have hinv2 := List.append_inj_right hinv rfl
                  rw [← hm]
                  exact ih post2 suffix out1 rem1 hwfPre2 hwfPost3 heq hinv2


/-- Output length accounting: a successful walk's output is exactly as
long as the post-alignment runs it consumed. -/
theorem reconcile_out_len (preRuns postRuns : List Run) (out : List Char)
    (rem : List Run) (h : reconcileRuns preRuns postRuns = .ok (out, rem)) :
    out.length + (runsJoin rem).length = (runsJoin postRuns).length := by
  obtain ⟨k, hrem, hlen⟩ := reconcile_shape preRuns postRuns out rem h
  rw [hlen, hrem]
  conv_rhs => rw [runsJoin_take_drop k postRuns]
  rw [List.length_append]

/-! ### C10: the base-run fast path emits the post-alignment characters -/

/-- C10: in the base-run fast path the code emits the pre-alignment run
without comparing characters; under the base-conservation hypothesis and
the success of all earlier iterations (the walk over the earlier
pre-alignment runs reaching this cursor position), the pre-alignment run's
characters must equal the post-alignment run's characters, so the emission
is character-identical to the post-alignment run. -/
theorem c10_fast_path_equality (preDone preRest2 postAll : List Run)
    (b p : List Char) (postRem : List Run) (outD : List Char)
    (hwfPre : runsWF (preDone ++ (b, 2) :: preRest2))
    (hwfPost : runsWF postAll)
    (hcons : basesOf (runsJoin (preDone ++ (b, 2) :: preRest2)) =
      stripGaps (runsJoin postAll))
    (hrun : reconcileRuns preDone postAll = .ok (outD, (p, 2) :: postRem))
    (hlen : p.length = b.length) :
    p = b := by
  have hwfD : runsWF preDone := fun x hx => hwfPre x (List.mem_append_left _ hx)
  have hwfR : runsWF ((b, 2) :: preRest2) := fun x hx =>
    hwfPre x (List.mem_append_right _ hx)
  have hinv : basesOf (runsJoin preDone) ++
      basesOf (runsJoin ((b, 2) :: preRest2)) = stripGaps (runsJoin postAll) := by
    rw [← basesOf_append, ← runsJoin_append]; exact hcons
  have hrem := reconcile_inv preDone postAll
    (basesOf (runsJoin ((b, 2) :: preRest2))) outD ((p, 2) :: postRem)
    hwfD hwfPost hrun hinv
  obtain ⟨k, hdrop, _⟩ := reconcile_shape preDone postAll outD ((p, 2) :: postRem) hrun
  have hwfRem : runsWF ((p, 2) :: postRem) := fun x hx =>
    hwfPost x (List.mem_of_mem_drop (hdrop ▸ hx))
  have hb2 : ∀ c ∈ b, CharToInt c = 2 := (hwfR (b, 2) (List.mem_cons_self _ _)).2
  have hp2 : ∀ c ∈ p, CharToInt c = 2 := (hwfRem (p, 2) (List.mem_cons_self _ _)).2
  simp only [runsJoin] at hrem
  rw [basesOf_append, basesOf_eq_self_of_base hb2, stripGaps_append,
    stripGaps_eq_self_of_base hp2] at hrem
  exact (List.append_inj_left hrem hlen.symm).symm

/-- C10 witness: after a missing-coverage run is processed, the fast path
faces `AC` against `AC`. -/
theorem c10_fast_path_equality_witness : (['A','C'] : List Char) = ['A','C'] :=
  c10_fast_path_equality [(['?','?'], 0)] [] [(['-','-'], 1), (['A','C'], 2)]
    ['A','C'] ['A','C'] [] ['?','?'] (by decide) (by decide) (by decide) rfl rfl

/-! ### C4: what happens when post-alignment runs are left unconsumed -/

/-- C4 counterexample: with pre-alignment consensus `A` and post-alignment
consensus `A-`, the walk consumes all pre-alignment runs leaving the final
gap run unconsumed, and the program aborts at the round-trip sanity check
— not with one of the walk's reconciliation errors. -/
theorem c4_no_cursor_check_counterexample :
    NewConsensusOf ['A'] ['A', '-'] = .error .roundTripFail ∧
    Err.roundTripFail.isReconciliationError = false := ⟨rfl, rfl⟩

/-- C4 (amended): if the walk succeeds with post-alignment runs left at
the cursor, the program still aborts before output, but via the
round-trip sanity check (an invariant-style error), not via one of the
walk's reconciliation errors. -/
theorem c4_leftover_fails_roundtrip (pre post : List Char)
    (preRuns postRuns : List Run) (nc : List Char) (rem : List Run)
    (h1 : SplitSeqByGapsAndMissingCov pre = some preRuns)
    (h2 : SplitSeqByGapsAndMissingCov post = some postRuns)
    (h3 : reconcileRuns preRuns postRuns = .ok (nc, rem))
    (h4 : rem ≠ []) :
    NewConsensusOf pre post = .error .roundTripFail ∧
    Err.roundTripFail.isReconciliationError = false := by
  obtain ⟨hjoin, hwf⟩ := split_some h2
  have hlen := reconcile_out_len preRuns postRuns nc rem h3
  obtain ⟨k, hdrop, _⟩ := reconcile_shape preRuns postRuns nc rem h3
  have hwfRem : runsWF rem := fun x hx =>
    hwf x (List.mem_of_mem_drop (hdrop ▸ hx))
  have hrem_pos : 0 < (runsJoin rem).length := by
    match rem, h4 with
    | (r, t) :: rem2, _ =>
      have hr := (hwfRem (r, t) (List.mem_cons_self _ _)).1
      simp only [runsJoin, List.length_append]
      have : 0 < r.length := List.length_pos.2 hr
      omega
  have hne : subMissing nc ≠ post := by
    intro he
    have h5 : nc.length = post.length := by rw [← subMissing_length nc, he]
    rw [← hjoin] at h5
    omega
  exact ⟨by simp [NewConsensusOf, h1, h2, h3, hne], rfl⟩

/-- C4 amended-claim witness at a concrete leftover situation. -/
theorem c4_leftover_fails_roundtrip_witness :
    NewConsensusOf ['C'] ['C', '-'] = .error .roundTripFail ∧
    Err.roundTripFail.isReconciliationError = false :=
  c4_leftover_fails_roundtrip ['C'] ['C', '-'] [(['C'], 2)]
    [(['C'], 2), (['-'], 1)] ['C'] [(['-'], 1)] rfl rfl rfl (by decide)

/-! ### C9: cursor bounds -/

/-- C9 counterexample: pre-alignment consensus `A-` against post-alignment
consensus `A` passes both the identifier check and the base-conservation
check, yet the walk's top-of-iteration read runs past the end of the
post-alignment run list — the Python script raises `IndexError` there
rather than exiting with a reconciliation message. -/
theorem c9_oob_counterexample :
    idsMatch ([("c", ['A']), ("r", ['T'])].map Prod.fst) ["c", "r"] = true ∧
    stripGaps ['A'] = stripGaps (subMissing ['A', '-']) ∧
    processAligned ["c", "r"] "c" ['A', '-'] [("c", ['A']), ("r", ['T'])] =
      .error .indexOOB := ⟨rfl, rfl, rfl⟩

/-- C9 (amended): the reads inside the greedy accumulation loop never go
out of bounds when the remaining runs carry enough non-gap characters
(which the base-content invariant supplies at a base run); the
top-of-iteration read, however, can go out of bounds even after the
identifier and base-conservation checks pass. -/
theorem c9_greedy_in_bounds (post : List Run) : ∀ L acc,
    L ≤ (stripGaps acc).length + (stripGaps (runsJoin post)).length →
    ∃ nf rem, greedy L acc post = .ok (nf, rem) := by
  induction post with
  | nil =>
    intro L acc hL
    refine ⟨acc, [], ?_⟩
    rw [greedy, if_pos ?_]
    simpa [runsJoin, stripGaps] using hL
  | cons pr rest ih =>
    obtain ⟨p, tp⟩ := pr
    intro L acc hL
    by_cases hc : L ≤ (stripGaps acc).length
    · exact ⟨acc, (p, tp) :: rest, by rw [greedy, if_pos hc]⟩
    · have hL2 : L ≤ (stripGaps (acc ++ p)).length +
          (stripGaps (runsJoin rest)).length := by
        simp only [runsJoin, stripGaps_append, List.length_append] at hL ⊢
        omega
      obtain ⟨nf, rem, hg⟩ := ih L (acc ++ p) hL2
      exact ⟨nf, rem, by rw [greedy, if_neg hc]; exact hg⟩

/-- C9 amended-claim witness: three post-alignment runs carrying three
non-gap characters satisfy a target of three. -/
theorem c9_greedy_in_bounds_witness :
    ∃ nf rem,
      greedy 3 [] [(['A','C'], 2), (['-'], 1), (['G'], 2)] = .ok (nf, rem) :=
  c9_greedy_in_bounds [(['A','C'], 2), (['-'], 1), (['G'], 2)] 3 [] (by decide)

/-! ### C8: the post-alignment consistency gate -/

theorem idsMatch_mem (xs : List String) : ∀ ys, idsMatch xs ys = true →
    ∀ a ∈ ys, a ∈ xs := by
  induction xs with
  | nil =>
    intro ys h a ha
    rw [idsMatch, List.isEmpty_iff] at h
    subst h
    simp at ha
  | cons x xs ih =>
    intro ys h a ha
    rw [idsMatch, Bool.and_eq_true] at h
    by_cases hax : a = x
    · subst hax; exact List.mem_cons_self _ _
    · have : a ∈ ys.erase x := (List.mem_erase_of_ne hax).mpr ha
      exact List.mem_cons_of_mem _ (ih (ys.erase x) h.2 a this)

theorem findConsensusSeq_some (aligned : List (String × List Char))
    (cid : String) (hmem : cid ∈ aligned.map Prod.fst) :
    ∃ s, findConsensusSeq aligned cid = some s := by
  induction aligned with
  | nil => simp at hmem
  | cons pr rest ih =>
    obtain ⟨i, s⟩ := pr
    match hfr : findConsensusSeq rest cid with
    | some t => exact ⟨t, by rw [findConsensusSeq, hfr]⟩
    | none =>
      have hmem2 : cid = i ∨ cid ∈ rest.map Prod.fst := by simpa using hmem
      rcases hmem2 with hmem2 | hmem2
      · refine ⟨s, ?_⟩
        rw [findConsensusSeq, hfr]
        simp [hmem2.symm]
      · obtain ⟨t, ht⟩ := ih hmem2
        rw [ht] at hfr
        exact Option.noConfusion hfr

/-- C8: before reconciliation, the program fails with a consistency error
when the post-alignment identifier multiset differs from the expected one
(conjunct 1) or when the post-alignment consensus's base content differs
from the gap-substituted pre-alignment consensus's (conjunct 2);
reconciliation runs exactly when both checks pass (conjunct 3), and a
passing identifier check guarantees the consensus is found (conjunct 4). -/
theorem c8_consistency_gate (allIds : List String) (cid : String)
    (preNorm : List Char) (aligned : List (String × List Char))
    (hmem : cid ∈ allIds) :
    (idsMatch (aligned.map Prod.fst) allIds = false →
      processAligned allIds cid preNorm aligned = .error .consistencyIds ∧
      Err.consistencyIds.isConsistencyError = true) ∧
    (∀ post, idsMatch (aligned.map Prod.fst) allIds = true →
      findConsensusSeq aligned cid = some post →
      stripGaps post ≠ stripGaps (subMissing preNorm) →
      processAligned allIds cid preNorm aligned = .error .consistencyBases ∧
      Err.consistencyBases.isConsistencyError = true) ∧
    (∀ post, idsMatch (aligned.map Prod.fst) allIds = true →
      findConsensusSeq aligned cid = some post →
      stripGaps post = stripGaps (subMissing preNorm) →
      processAligned allIds cid preNorm aligned = NewConsensusOf preNorm post) ∧
    (idsMatch (aligned.map Prod.fst) allIds = true →
      ∃ post, findConsensusSeq aligned cid = some post) := by
  refine ⟨?_, ?_, ?_, ?_⟩
  · intro hfail
    exact ⟨by simp [processAligned, hfail], rfl⟩
  · intro post hpass hfind hne
    exact ⟨by simp [processAligned, hpass, hfind, hne], rfl⟩
  · intro post hpass hfind heq
    simp [processAligned, hpass, hfind, heq]
  · intro hpass
    exact findConsensusSeq_some aligned cid
      (idsMatch_mem (aligned.map Prod.fst) allIds hpass cid hmem)

/-- C8 witness: both checks pass at a concrete alignment, and the gate
hands over to reconstruction. -/
theorem c8_consistency_gate_witness :
    processAligned ["c", "r"] "c" ['A','C','?','?','G']
        [("c", ['A','C','-','-','G']), ("r", ['T','T','T','T','T'])] =
      NewConsensusOf ['A','C','?','?','G'] ['A','C','-','-','G'] :=
  (c8_consistency_gate ["c", "r"] "c" ['A','C','?','?','G']
    [("c", ['A','C','-','-','G']), ("r", ['T','T','T','T','T'])]
    (by decide)).2.2.1 ['A','C','-','-','G'] rfl rfl rfl

end Shiver
